import Mathlib

/-!
Verification of the CVE intake workflow (`cve_workflow.py`) against its
natural-language specification.  Strings are modelled as lists of
characters; the Python functions are translated one-to-one into
executable Lean definitions, and the spec's claims are settled as
theorems about those definitions.
-/

/-- Strings from the Python program, modelled as lists of characters. -/
abbrev Str := List Char

/-- Lowercasing of a whole string (`str.lower()` on ASCII data). -/
def lowerStr (s : Str) : Str := s.map Char.toLower

/-- The whitespace class of Python's `\s` on ASCII text
(space, tab, newline, carriage return, vertical tab, form feed). -/
def pySpace (c : Char) : Bool :=
  c == ' ' || c == '\t' || c == '\n' || c == '\r' || c == '\x0b' || c == '\x0c'

/-- Python `str.strip()`: drop leading and trailing whitespace. -/
def pyStrip (s : Str) : Str :=
  (((s.dropWhile pySpace).reverse.dropWhile pySpace)).reverse

/-- Split a string at the first occurrence of `sep`
(`str.split(sep, 1)` when `sep` occurs); `none` when `sep` is absent. -/
def splitFirst (sep : Char) : Str → Option (Str × Str)
  | [] => none
  | c :: rest =>
    if c = sep then some ([], rest)
    else (splitFirst sep rest).map (fun p => (c :: p.1, p.2))

/-- Python `str.split(',')`: split at every comma; never returns the
empty list (the empty string splits to `[""]`). -/
def splitCommas : Str → List Str
  | [] => [[]]
  | c :: rest =>
    if c = ',' then [] :: splitCommas rest
    else
      match splitCommas rest with
      | t :: ts => (c :: t) :: ts
      | [] => [[c]]

/-- The static alias table of `get_component_aliases` (`alias_map`). -/
def alias_map : List (Str × List Str) :=
  [ (r"poi".toList, [r"apache poi".toList, r"poi library".toList]),
    (r"log4j".toList, [r"apache log4j".toList, r"log4j2".toList]),
    (r"spring".toList, [r"spring framework".toList, r"springframework".toList]),
    (r"struts".toList, [r"apache struts".toList, r"struts2".toList]),
    (r"jackson".toList, [r"jackson-databind".toList, r"fasterxml jackson".toList]),
    (r"gson".toList, [r"google gson".toList]),
    (r"fastjson".toList, [r"alibaba fastjson".toList]),
    (r"mysql".toList, [r"mysql connector".toList, r"mysql-connector".toList]),
    (r"redis".toList, [r"redis server".toList]),
    (r"nginx".toList, [r"nginx server".toList]),
    (r"apache".toList, [r"apache httpd".toList, r"apache server".toList]),
    (r"tomcat".toList, [r"apache tomcat".toList]),
    (r"elasticsearch".toList, [r"elastic elasticsearch".toList]),
    (r"kibana".toList, [r"elastic kibana".toList]),
    (r"mongodb".toList, [r"mongo database".toList]),
    (r"postgresql".toList, [r"postgres".toList, r"postgresql database".toList]),
    (r"node".toList, [r"node.js".toList, r"nodejs".toList]),
    (r"react".toList, [r"react.js".toList, r"reactjs".toList]),
    (r"vue".toList, [r"vue.js".toList, r"vuejs".toList]),
    (r"angular".toList, [r"angular.js".toList, r"angularjs".toList]),
    (r"jquery".toList, [r"jquery library".toList]),
    (r"bootstrap".toList, [r"bootstrap framework".toList]),
    (r"django".toList, [r"django framework".toList]),
    (r"flask".toList, [r"flask framework".toList]),
    (r"express".toList, [r"express.js".toList, r"expressjs".toList]),
    (r"laravel".toList, [r"laravel framework".toList]),
    (r"symfony".toList, [r"symfony framework".toList]),
    (r"wordpress".toList, [r"wordpress cms".toList]),
    (r"drupal".toList, [r"drupal cms".toList]),
    (r"joomla".toList, [r"joomla cms".toList]) ]

/-- Dictionary lookup `alias_map.get(key, [])`. -/
def lookupAliases (k : Str) : List (Str × List Str) → List Str
  | [] => []
  | (k', v) :: rest => if k = k' then v else lookupAliases k rest

/-- `get_component_aliases`: the original name followed by the aliases
found by case-insensitive lookup in `alias_map`. -/
def get_component_aliases (component_name : Str) : List Str :=
  let component_lower := lowerStr component_name
  let aliases := lookupAliases component_lower alias_map
  component_name :: aliases

/-- `fetch_cve_data`'s choice of search term: the second element of the
alias list when it exists (`search_terms[1] if len(search_terms) > 1
else search_terms[0]`). -/
def primary_search_term (component : Str) : Str :=
  match get_component_aliases component with
  | _ :: t :: _ => t
  | [t] => t
  | [] => []

/-- The query parameters of the `advanced-search` request built by
`fetch_cve_data`. -/
def fetch_params (keyword startDate endDate : Str) : List (Str × Str) :=
  [ (r"keyword".toList, keyword),
    (r"published_after".toList, startDate),
    (r"published_before".toList, endDate),
    (r"last_modified_after".toList, startDate),
    (r"last_modified_before".toList, endDate),
    (r"cvss_min".toList, r"7.00".toList),
    (r"cvss_max".toList, r"10.00".toList),
    (r"order_by".toList, r"-published".toList) ]

/-- First-match lookup of a query parameter by key. -/
def lookupParam (k : Str) : List (Str × Str) → Option Str
  | [] => none
  | (k', v) :: rest => if k = k' then some v else lookupParam k rest

/-- Word characters of the regex `\b` boundary (`\w` on ASCII text). -/
def isWordChar (c : Char) : Bool := c.isAlphanum || c == '_'

/-- Whether position `i` of `text` holds a word character; out-of-range
positions count as non-word (string edge). -/
def wordCharAt (text : Str) (i : Nat) : Bool := isWordChar (text.getD i ' ')

/-- The regex `\b` word boundary at position `i`: exactly one of the two
surrounding positions holds a word character. -/
def boundaryAt (text : Str) (i : Nat) : Bool :=
  ((decide (i ≠ 0)) && wordCharAt text (i - 1)) != wordCharAt text i

/-- One candidate match of `re.search(r'\b' + re.escape(pat) + r'\b', text)`
at start position `i`. -/
def matchWordAt (text pat : Str) (i : Nat) : Bool :=
  boundaryAt text i && pat.isPrefixOf (text.drop i) && boundaryAt text (i + pat.length)

/-- `re.search` of the word-bounded literal pattern over all positions. -/
def regexSearchWord (text pat : Str) : Bool :=
  (List.range (text.length + 1)).any (matchWordAt text pat)

/-- `is_valid_component_match`: lowercase both strings and search for the
component name with word boundaries on both sides. -/
def is_valid_component_match (text component_name : Str) : Bool :=
  regexSearchWord (lowerStr text) (lowerStr component_name)

/-- Modelled from the spec: the candidate occurs at `i` "bounded by
non-word characters or string edges". -/
def standaloneWordAt (text pat : Str) (i : Nat) : Bool :=
  pat.isPrefixOf (text.drop i) && (decide (i = 0) || !wordCharAt text (i - 1)) &&
    (decide (i + pat.length = text.length) || !wordCharAt text (i + pat.length))

/-- Modelled from the spec: `pat` occurs somewhere in `text` as a
standalone word. -/
def occursAsWord (pat text : Str) : Bool :=
  (List.range (text.length + 1)).any (standaloneWordAt text pat)

/-- A candidate name whose lowercase form is non-empty and starts and
ends with a word character (true of every name in `alias_map`). -/
def wordEdgedLower (n : Str) : Bool :=
  !(lowerStr n).isEmpty && isWordChar ((lowerStr n).getD 0 ' ') &&
    isWordChar ((lowerStr n).getD ((lowerStr n).length - 1) ' ')

/-- A raw advisory record as delivered by the upstream service; each
field may be absent from the payload dictionary. -/
structure RawCve where
  id : Option Str
  published : Option Str
  description : Option Str
  references : Option (List Str)
deriving DecidableEq

/-- The three texts checked by `validate_cve_relevance`
(`description`, `id`, space-joined `references`), absent fields
defaulting to the empty string. -/
def fields_to_check (cve : RawCve) : List Str :=
  [ cve.description.getD [],
    cve.id.getD [],
    match cve.references with
    | some refs => if refs.isEmpty then [] else List.intercalate [' '] refs
    | none => [] ]

/-- `validate_cve_relevance`: some alias of the component matches with
word boundaries in some non-empty checked field. -/
def validate_cve_relevance (cve : RawCve) (component_name : Str) : Bool :=
  let all_names := get_component_aliases component_name
  (fields_to_check cve).any (fun field_text =>
    !field_text.isEmpty && all_names.any (fun n => is_valid_component_match field_text n))

/-- One parsed line of the component-list file. -/
structure ComponentCfg where
  name : Str
  search_terms : List Str
deriving DecidableEq

/-- Line parsing of `read_components_with_config`: a line with a colon is
`name: term1, term2`; a bare line gets the alias table as search terms. -/
def parse_component_line (line : Str) : ComponentCfg :=
  match splitFirst ':' line with
  | some (rawName, rest) => ⟨pyStrip rawName, (splitCommas rest).map pyStrip⟩
  | none => ⟨line, get_component_aliases line⟩

/-- Python `line.startswith('#')`. -/
def pyStartsWithHash (l : Str) : Bool :=
  match l with
  | c :: _ => c == '#'
  | [] => false

/-- `read_components_with_config` on the stripped lines of the file:
drop blank and comment lines, parse the rest. -/
def read_components_with_config (lines : List Str) : List ComponentCfg :=
  ((lines.map pyStrip).filter (fun l => !l.isEmpty && !pyStartsWithHash l)).map
    parse_component_line

/-- Scanner for `re.sub('<.*?>', '', text)`.  While outside a candidate
tag, characters are copied; a `<` opens a buffered candidate which is
discarded at the first `>` (the non-greedy match) and flushed verbatim
when a newline or the end of the string is reached first (`.` does not
match a newline, so no match can start at that `<`). -/
def removeTagsAux : Option Str → Str → Str
  | none, [] => []
  | none, c :: rest =>
    if c = '<' then removeTagsAux (some [c]) rest else c :: removeTagsAux none rest
  | some buf, [] => buf.reverse
  | some buf, c :: rest =>
    if c = '>' then removeTagsAux none rest
    else if c = '\n' then buf.reverse ++ '\n' :: removeTagsAux none rest
    else removeTagsAux (some (c :: buf)) rest

/-- `clean_html_tags`: remove `<...>` substrings (no newline inside). -/
def clean_html_tags (text : Str) : Str := removeTagsAux none text

/-- `re.sub(r'\s+', ' ', text)`: collapse every whitespace run to one
space. -/
def collapseWs : Str → Str
  | [] => []
  | [c] => if pySpace c then [' '] else [c]
  | c1 :: c2 :: rest =>
    if pySpace c1 then
      (if pySpace c2 then collapseWs (c2 :: rest) else ' ' :: collapseWs (c2 :: rest))
    else c1 :: collapseWs (c2 :: rest)

/-- `clean_description`: strip tags, collapse whitespace, trim. -/
def clean_description (text : Str) : Str := pyStrip (collapseWs (clean_html_tags text))

/-- `published.split('T')[0]`: the date part of an ISO timestamp. -/
def truncDate (s : Str) : Str := s.takeWhile (fun c => !(c == 'T'))

/-- One row of the processed output (`CVE编号`, `发布时间`, `漏洞描述`). -/
structure CveEntry where
  cveId : Str
  publishedDate : Str
  descriptionText : Str
deriving DecidableEq

/-- The entry built by `process_cve_data` for one validated record.  The
Python indexes `cve['id']`, `cve['published']`, `cve['description']`
directly, so an absent field raises (modelled by `none`). -/
def build_cve_entry (cve : RawCve) : Option CveEntry :=
  match cve.id, cve.published, cve.description with
  | some i, some p, some d => some ⟨i, truncDate p, clean_description d⟩
  | _, _, _ => none

/-- The body of a well-formed JSON object payload; `results` may be
absent. -/
structure PayloadObj where
  results : Option (List RawCve)
deriving DecidableEq

/-- A parsed JSON document: an object, or some other JSON value (on
which the component-name assignment raises `TypeError`). -/
inductive JsonDoc where
  | objDoc (payload : PayloadObj)
  | otherDoc
deriving DecidableEq

/-- The value returned by a successful `fetch_cve_data`: the payload
dictionary with `component` added. -/
structure FetchResult where
  component : Str
  payload : PayloadObj
deriving DecidableEq

/-- An HTTP response: status code, the result of
`brotli.decompress(content).decode('utf-8')` (`none` when it raises),
and the result of `content.decode('utf-8')` (`none` when it raises). -/
structure HttpResponse where
  status : Nat
  brotliDecoded : Option Str
  textDecoded : Option Str

/-- The external world seen by one fetch: `requests.get` on given query
parameters (`none` models a network-level fault) and `json.loads`
(`none` models a parse error). -/
structure FetchEnv where
  send : List (Str × Str) → Option HttpResponse
  jsonLoads : Str → Option JsonDoc

/-- Content decoding with the brotli fallback: use the decompressed text
when decompression succeeds, otherwise decode the raw bytes directly. -/
def fallbackContent (r : HttpResponse) : Option Str :=
  match r.brotliDecoded with
  | some c => some c
  | none => r.textDecoded

/-- `fetch_cve_data`: build the query, send it, decode with fallback,
fail on 4xx/5xx (`raise_for_status`), parse JSON, attach the component
name.  Every failure path is caught and returns `none`. -/
def fetch_cve_data (component startDate endDate : Str) (env : FetchEnv) : Option FetchResult :=
  match env.send (fetch_params (primary_search_term component) startDate endDate) with
  | none => none
  | some response =>
    match fallbackContent response with
    | none => none
    | some content =>
      if 400 ≤ response.status ∧ response.status < 600 then none
      else
        match env.jsonLoads content with
        | none => none
        | some JsonDoc.otherDoc => none
        | some (JsonDoc.objDoc payload) => some ⟨component, payload⟩

/-- The per-component ingestion loop of `main`: fetch each component in
input order and append only successful results. -/
def main_ingest (envOf : Str → FetchEnv) (startDate endDate : Str)
    (comps : List Str) : List FetchResult :=
  comps.foldl (fun acc c =>
    acc ++ (fetch_cve_data c startDate endDate (envOf c)).toList) []

/-- One group of `ResultGroup` output (`组件名称`, `漏洞列表`). -/
structure ResultGroup where
  component : Str
  vulns : List CveEntry
deriving DecidableEq

/-- The inner loop of `process_cve_data` over one component's records:
keep validated records, building entries; an absent required field
raises (propagated as `none`). -/
def process_component (componentName : Str) (results : List RawCve) :
    Option (List CveEntry) :=
  results.foldl (fun acc cve =>
    match acc with
    | none => none
    | some entries =>
      if validate_cve_relevance cve componentName then
        match build_cve_entry cve with
        | some e => some (entries ++ [e])
        | none => none
      else some entries) (some [])

/-- `process_cve_data`: per fetched component, validate and normalize
records, keeping only components with at least one surviving entry. -/
def process_cve_data (json_data : List FetchResult) : Option (List ResultGroup) :=
  json_data.foldl (fun acc cd =>
    match acc with
    | none => none
    | some groups =>
      match cd.payload.results with
      | none => none
      | some results =>
        match process_component cd.component results with
        | none => none
        | some entries =>
          if entries.isEmpty then some groups
          else some (groups ++ [⟨cd.component, entries⟩])) (some [])

/-- `merge_component_cells`, with worksheet row `r` of the data area
mapped to index `r - 2`: the scan of column values with `current` and
`start_row` state, emitting a merged range at every close, plus the
trailing merge of the final group.  Ranges are `(component, first
index, last index)`. -/
def merge_component_cells (comps : List Str) : List (Str × Nat × Nat) :=
  let n := comps.length
  let st := (List.range n).foldl
    (fun (st : Option Str × Nat × List (Str × Nat × Nat)) i =>
      let component := comps.getD i []
      match st.1 with
      | none => (some component, i, st.2.2)
      | some cur =>
        if component ≠ cur ∨ i + 1 = n then
          (some component, i,
            if st.2.1 < i then st.2.2 ++ [(cur, st.2.1, i - 1)] else st.2.2)
        else st)
    (none, 0, [])
  if st.2.1 + 1 < n then st.2.2 ++ [(comps.getD st.2.1 [], st.2.1, n - 1)] else st.2.2

/-- Modelled from the spec: the ranges start at index 0, are contiguous
and ordered, and jointly cover every row index. -/
def runsCoverFrom (n : Nat) : Nat → List (Str × Nat × Nat) → Bool
  | k, [] => k == n
  | k, (_, s, e) :: rest => s == k && decide (s ≤ e) && runsCoverFrom n (e + 1) rest

/-- Modelled from the spec: each range carries the component key of all
of its rows. -/
def runsMatchComps (comps : List Str) (runs : List (Str × Nat × Nat)) : Bool :=
  runs.all (fun r => (List.range' r.2.1 (r.2.2 + 1 - r.2.1)).all
    (fun i => comps.getD i [] == r.1))

/-- Modelled from the spec: no two adjacent ranges share a component key
(ranges are maximal). -/
def adjacentRunsDistinct : List (Str × Nat × Nat) → Bool
  | r1 :: r2 :: rest => !(r1.1 == r2.1) && adjacentRunsDistinct (r2 :: rest)
  | _ => true

/-- Modelled from the spec: the merge runs exactly partition the rows
into maximal contiguous same-component ranges. -/
def isMergePartition (comps : List Str) (runs : List (Str × Nat × Nat)) : Bool :=
  runsCoverFrom comps.length 0 runs && runsMatchComps comps runs &&
    adjacentRunsDistinct runs

/-- Every whitespace character of `s` is a plain space. -/
def allWsSpace (s : Str) : Bool := s.all (fun c => !pySpace c || c == ' ')

/-- No two adjacent characters of `s` are both whitespace. -/
def noAdjWs : Str → Bool
  | c1 :: c2 :: rest => !(pySpace c1 && pySpace c2) && noAdjWs (c2 :: rest)
  | _ => true

/-- The first character of `s`, if any, is not whitespace. -/
def headNotWs (s : Str) : Bool :=
  match s with
  | c :: _ => !pySpace c
  | [] => true

/-- Fully normalized whitespace: only single interior spaces, no leading
or trailing whitespace. -/
def wsClean (s : Str) : Bool :=
  allWsSpace s && noAdjWs s && headNotWs s && headNotWs s.reverse

/-- The characters relevant to tag matching. -/
def isTagChar (c : Char) : Bool := c == '<' || c == '>'

/-- The subsequence of `<` and `>` characters of `s`. -/
def filterTag (s : Str) : Str := s.filter isTagChar

/-- No `<` in `s` is followed (anywhere later) by a `>`. -/
def noLaterGt : Str → Bool
  | [] => true
  | c :: rest => (if c = '<' then !(rest.any (fun d => d == '>')) else true) && noLaterGt rest

/-- The description of the spec's normalization scenario. -/
def exInput : Str := "<b>Remote code execution</b>\n\n  in module".toList

/-- Its expected normalized form. -/
def exOutput : Str := r"Remote code execution in module".toList

/-- A sample ISO-8601 timestamp. -/
def exTimestamp : Str := r"2024-01-02T15:04:05Z".toList

/-- Its date component. -/
def exDate : Str := r"2024-01-02".toList

/-- A description whose candidate tag is interrupted by a newline: the
first cleaning keeps it, but turns the newline into a space. -/
def tagNewlineInput : Str := "a<b\nc>d".toList

/-- A newline-free sample description. -/
def noNewlineInput : Str := r"<b>x</b>  y".toList

def alphaStr : Str := r"alpha".toList

def betaStr : Str := r"beta".toList

def log4jStr : Str := r"log4j".toList

def redisLine : Str := r"redis: redis-server".toList

def redisStr : Str := r"redis".toList

/-- A fixed response body. -/
def contentX : Str := r"payload".toList

/-- A JSON parser recognising exactly `contentX` as an object with an
empty result list. -/
def parseX : Str → Option JsonDoc :=
  fun c => if c = contentX then some (JsonDoc.objDoc ⟨some []⟩) else none

def okResponse : HttpResponse := ⟨200, none, some contentX⟩

def resp304 : HttpResponse := ⟨304, none, some contentX⟩

/-- An environment whose request always succeeds with status 200. -/
def envOk : FetchEnv := ⟨fun _ => some okResponse, parseX⟩

/-- An environment whose request always returns status 304. -/
def env304 : FetchEnv := ⟨fun _ => some resp304, parseX⟩

/-- An environment whose request always fails at the network level. -/
def envFail : FetchEnv := ⟨fun _ => none, parseX⟩

/-- Fetch behaviour for the ingestion counterexample: `alpha` succeeds,
every other component fails. -/
def envOf2 : Str → FetchEnv := fun c => if c = alphaStr then envOk else envFail

def dateS : Str := r"2024-01-01".toList

def dateE : Str := r"2024-01-31".toList

def goName : Str := r"go".toList

/-- A record about MongoDB: `go` occurs only inside the word `mongodb`. -/
def cveMongo : RawCve :=
  ⟨some (r"CVE-2024-0001".toList), some (r"2024-01-02T10:00:00".toList),
    some (r"mongodb crash".toList), none⟩

/-- A record mentioning `go` as a standalone word. -/
def cveGo : RawCve :=
  ⟨some (r"CVE-2024-0002".toList), some (r"2024-01-03T10:00:00".toList),
    some (r"upgrade go now".toList), none⟩

/-- A record with no `description` field whose `id` text still matches
the component `go` as a standalone word. -/
def cveNoDesc : RawCve :=
  ⟨some (r"see go advisory".toList), some (r"2024-01-02T10:00:00".toList), none, none⟩

theorem lookupAliases_sound (k : Str) :
    ∀ table : List (Str × List Str),
      (∀ p ∈ table, p.2.Nodup ∧ ∀ a ∈ p.2, lowerStr a ≠ p.1) →
      (lookupAliases k table).Nodup ∧ ∀ a ∈ lookupAliases k table, lowerStr a ≠ k := by
  intro table
  induction table with
  | nil => intro _; exact ⟨List.nodup_nil, by intro a ha; cases ha⟩
  | cons p rest ih =>
    intro h
    obtain ⟨k', v⟩ := p
    by_cases hk : k = k'
    · simp only [lookupAliases, if_pos hk]
      refine ⟨(h (k', v) (List.mem_cons_self _ _)).1, ?_⟩
      intro a ha
      have := (h (k', v) (List.mem_cons_self _ _)).2 a ha
      simpa [hk] using this
    · simp only [lookupAliases, if_neg hk]
      exact ih (fun p hp => h p (List.mem_cons_of_mem _ hp))

theorem alias_map_sound :
    ∀ p ∈ alias_map, p.2.Nodup ∧ ∀ a ∈ p.2, lowerStr a ≠ p.1 := by decide

/-- C9: for every name, `get_component_aliases` returns a sequence whose
first element is the input name with its case preserved, the result has
no duplicate entries, and it collapses to the single-element sequence
`[name]` exactly when the case-insensitive table lookup finds nothing. -/
theorem C9_alias_resolution (name : Str) :
    (get_component_aliases name).head? = some name ∧
    (get_component_aliases name).Nodup ∧
    (get_component_aliases name = [name] ↔
      lookupAliases (lowerStr name) alias_map = []) := by
  have hs := lookupAliases_sound (lowerStr name) alias_map alias_map_sound
  refine ⟨rfl, ?_, ?_⟩
  · rw [show get_component_aliases name
        = name :: lookupAliases (lowerStr name) alias_map from rfl]
    rw [List.nodup_cons]
    refine ⟨?_, hs.1⟩
    intro hmem
    exact (hs.2 name hmem) rfl
  · rw [show get_component_aliases name
        = name :: lookupAliases (lowerStr name) alias_map from rfl]
    constructor
    · intro h
      have := List.cons.injEq name (lookupAliases (lowerStr name) alias_map) name [] ▸ h
      simpa using h
    · intro h; rw [h]

/-- C10: the query built by `fetch_cve_data` always carries
`last_modified_after = start` and `last_modified_before = end`, in
addition to the published-date bounds. -/
theorem C10_last_modified_params (component startDate endDate : Str) :
    lookupParam (r"last_modified_after".toList)
        (fetch_params (primary_search_term component) startDate endDate) = some startDate ∧
    lookupParam (r"last_modified_before".toList)
        (fetch_params (primary_search_term component) startDate endDate) = some endDate ∧
    lookupParam (r"published_after".toList)
        (fetch_params (primary_search_term component) startDate endDate) = some startDate ∧
    lookupParam (r"published_before".toList)
        (fetch_params (primary_search_term component) startDate endDate) = some endDate := by
  refine ⟨?_, ?_, ?_, ?_⟩ <;> rfl

/-- C1: the merge scan closes its final run one row early (the loop
also closes on `row == data_length + 1`, and the trailing merge branch
is then unreachable), so on two equal adjacent components the computed
runs do not partition the rows: the last row belongs to no run, and the
two equal cells are never merged. -/
theorem C1_merge_runs_code_bug :
    merge_component_cells [alphaStr, alphaStr] = [(alphaStr, 0, 0)] ∧
    isMergePartition [alphaStr, alphaStr]
      (merge_component_cells [alphaStr, alphaStr]) = false ∧
    merge_component_cells [alphaStr, alphaStr, alphaStr] = [(alphaStr, 0, 1)] := by
  refine ⟨by decide, by decide, by decide⟩

theorem foldl_collect_eq_filterMap {α β : Type} (f : α → Option β) :
    ∀ (l : List α) (acc : List β),
      l.foldl (fun a c => a ++ (f c).toList) acc = acc ++ l.filterMap f := by
  intro l
  induction l with
  | nil => intro acc; simp
  | cons c l ih =>
    intro acc
    cases hf : f c with
    | none => simp [List.foldl_cons, hf, ih, List.filterMap_cons]
    | some r => simp [List.foldl_cons, hf, ih, List.filterMap_cons]

/-- C2 counterexample: with a fetch behaviour where `alpha` succeeds and
`beta` fails, the ingestion loop of `main` returns a single outcome for
the two input components — the failed fetch is dropped, not recorded. -/
theorem C2_failure_omitted :
    main_ingest envOf2 dateS dateE [alphaStr, betaStr] = [⟨alphaStr, ⟨some []⟩⟩] ∧
    (main_ingest envOf2 dateS dateE [alphaStr, betaStr]).length ≠
      [alphaStr, betaStr].length := by
  refine ⟨by decide, by decide⟩

/-- C2 amended: the ingestion loop of `main` equals `filterMap` of the
fetch over the input sequence — outcomes appear in input order, one per
successful component, and failed fetches are omitted entirely (the code
is sequential, so completion order equals input order). -/
theorem C2_order_amended (envOf : Str → FetchEnv) (startDate endDate : Str)
    (comps : List Str) :
    main_ingest envOf startDate endDate comps
      = comps.filterMap (fun c => fetch_cve_data c startDate endDate (envOf c)) := by
  unfold main_ingest
  simpa using foldl_collect_eq_filterMap
    (fun c => fetch_cve_data c startDate endDate (envOf c)) comps []

theorem splitCommas_ne_nil (s : Str) : splitCommas s ≠ [] := by
  cases s with
  | nil => simp [splitCommas]
  | cons c rest =>
    simp only [splitCommas]
    by_cases h : c = ','
    · simp [h]
    · simp only [if_neg h]
      cases splitCommas rest <;> simp

/-- C3 counterexample: a config-format line keeps only the user-supplied
comma-separated terms, so the canonical name `redis` is not among the
search terms produced from `redis: redis-server`. -/
theorem C3_config_line_drops_name :
    (parse_component_line redisLine).name = redisStr ∧
    (parse_component_line redisLine).search_terms = [r"redis-server".toList] ∧
    redisStr ∉ (parse_component_line redisLine).search_terms := by
  refine ⟨by decide, by decide, by decide⟩

/-- C3 amended: every parsed line yields a non-empty `search_terms`
sequence, and for bare-identifier lines (no colon) the canonical name is
included; config-format lines carry exactly the user-supplied terms,
which need not include the name. -/
theorem C3_search_terms_amended :
    (∀ line, (parse_component_line line).search_terms ≠ []) ∧
    (∀ line, splitFirst ':' line = none →
      (parse_component_line line).name ∈ (parse_component_line line).search_terms) ∧
    (∀ lines : List Str, ∀ c ∈ read_components_with_config lines,
      c.search_terms ≠ []) := by
  have h1 : ∀ line, (parse_component_line line).search_terms ≠ [] := by
    intro line
    unfold parse_component_line
    cases hs : splitFirst ':' line with
    | none => simp [get_component_aliases]
    | some p =>
      obtain ⟨a, b⟩ := p
      intro hmap
      exact splitCommas_ne_nil b (List.map_eq_nil_iff.mp hmap)
  refine ⟨h1, ?_, ?_⟩
  · intro line h
    unfold parse_component_line
    rw [h]
    exact List.mem_cons_self _ _
  · intro lines c hc
    unfold read_components_with_config at hc
    obtain ⟨l, _, hparse⟩ := List.mem_map.mp hc
    rw [← hparse]
    exact h1 l

theorem C3_search_terms_witness :
    (parse_component_line redisLine).search_terms ≠ [] ∧
    (parse_component_line log4jStr).name ∈ (parse_component_line log4jStr).search_terms ∧
    (parse_component_line log4jStr).search_terms ≠ [] :=
  ⟨C3_search_terms_amended.1 redisLine,
   C3_search_terms_amended.2.1 log4jStr (by decide),
   C3_search_terms_amended.2.2 [log4jStr] (parse_component_line log4jStr) (by decide)⟩

/-- C5 counterexample: a record with no `description` field passes
relevance validation through its `id` text, but processing it raises
(`cve['description']`), so `process_cve_data` is not total on validated
records. -/
theorem C5_missing_description_crash :
    validate_cve_relevance cveNoDesc goName = true ∧
    process_cve_data [⟨goName, ⟨some [cveNoDesc]⟩⟩] = none := by
  refine ⟨by decide, by decide⟩

/-- C5 amended: building the processed entry for a record succeeds
exactly when the record carries its `id`, `published` and `description`
fields; relevance validation does not guarantee their presence, so
processing is total only on records with all three fields. -/
theorem C5_totality_amended (cve : RawCve) :
    (build_cve_entry cve).isSome
      = (cve.id.isSome && cve.published.isSome && cve.description.isSome) := by
  obtain ⟨i, p, d, r⟩ := cve
  cases i <;> cases p <;> cases d <;> rfl

/-- C6 counterexample: `raise_for_status` only raises on 4xx/5xx, so a
final status of 304 — non-2xx — with a parseable body is returned as a
success, not a failure. -/
theorem C6_non2xx_not_failure :
    fetch_cve_data alphaStr dateS dateE env304 = some ⟨alphaStr, ⟨some []⟩⟩ ∧
    resp304.status = 304 := by
  refine ⟨by decide, by decide⟩

/-- C6 amended: a fetch fails (returns `none`, the failure outcome)
exactly when the request itself fails, the payload cannot be decoded
even after the brotli fallback, the status is 4xx/5xx, or the payload is
not a well-formed JSON object; in every other case — including a
well-formed object with an empty `results` list — it succeeds, and no
exception escapes (the function is total). -/
theorem C6_fetch_failure_amended (component startDate endDate : Str) (env : FetchEnv) :
    fetch_cve_data component startDate endDate env = none ↔
      (env.send (fetch_params (primary_search_term component) startDate endDate) = none ∨
       ∃ r, env.send (fetch_params (primary_search_term component) startDate endDate)
              = some r ∧
         (fallbackContent r = none ∨
          ∃ c, fallbackContent r = some c ∧
            ((400 ≤ r.status ∧ r.status < 600) ∨
             (¬(400 ≤ r.status ∧ r.status < 600) ∧
               (env.jsonLoads c = none ∨ env.jsonLoads c = some JsonDoc.otherDoc))))) := by
  unfold fetch_cve_data
  cases hsend : env.send (fetch_params (primary_search_term component) startDate endDate) with
  | none => simp
  | some r =>
    simp only [Option.some.injEq, exists_eq_left', false_or]
    cases hc : fallbackContent r with
    | none => simp
    | some c =>
      simp only [Option.some.injEq, exists_eq_left', false_or]
      by_cases hs : 400 ≤ r.status ∧ r.status < 600
      · simp [hs]
      · simp only [if_neg hs, hs, false_or, not_false_iff, true_and]
        cases hj : env.jsonLoads c with
        | none => simp
        | some d =>
          cases d with
          | objDoc payload => simp
          | otherDoc => simp

theorem isPrefixOf_eq_true_iff (l₁ l₂ : Str) :
    l₁.isPrefixOf l₂ = true ↔ ∃ t, l₂ = l₁ ++ t := by
  induction l₁ generalizing l₂ with
  | nil => simp
  | cons a as ih =>
    cases l₂ with
    | nil => simp
    | cons b bs =>
      rw [List.isPrefixOf_cons₂, Bool.and_eq_true, beq_iff_eq, ih]
      constructor
      · rintro ⟨hab, t, ht⟩
        exact ⟨t, by rw [hab, ht, List.cons_append]⟩
      · rintro ⟨t, ht⟩
        rw [List.cons_append] at ht
        injection ht with h1 h2
        exact ⟨h1.symm, t, h2⟩

theorem getD_of_drop_append (text pat t : Str) (i k : Nat)
    (h : text.drop i = pat ++ t) (hk : k < pat.length) :
    text.getD (i + k) ' ' = pat.getD k ' ' := by
  have h1 : text[i + k]? = (text.drop i)[k]? := (List.getElem?_drop text i k).symm
  rw [List.getD_eq_getElem?_getD, List.getD_eq_getElem?_getD, h1, h,
    List.getElem?_append_left hk]

theorem matchWordAt_eq_standaloneWordAt (text pat : Str) (i : Nat)
    (hne : pat ≠ []) (h0 : isWordChar (pat.getD 0 ' ') = true)
    (h1 : isWordChar (pat.getD (pat.length - 1) ' ') = true) :
    matchWordAt text pat i = standaloneWordAt text pat i := by
  cases hp : pat.isPrefixOf (text.drop i) with
  | false =>
    unfold matchWordAt standaloneWordAt
    rw [hp]
    simp
  | true =>
    obtain ⟨t, ht⟩ := (isPrefixOf_eq_true_iff pat (text.drop i)).mp hp
    have hplen : 0 < pat.length := List.length_pos.mpr hne
    have hilen : i ≤ text.length := by
      by_contra hgt
      push_neg at hgt
      have hnil : text.drop i = [] := List.drop_eq_nil_of_le (le_of_lt hgt)
      rw [hnil] at ht
      have hlen := congrArg List.length ht
      simp at hlen
      omega
    have hlen : i + pat.length ≤ text.length := by
      have h2 := congrArg List.length ht
      simp [List.length_drop] at h2
      omega
    have hw0 : wordCharAt text i = true := by
      have h2 := getD_of_drop_append text pat t i 0 ht hplen
      rw [Nat.add_zero] at h2
      unfold wordCharAt
      rw [h2]
      exact h0
    have hwlast : wordCharAt text (i + pat.length - 1) = true := by
      have hk : pat.length - 1 < pat.length := by omega
      have h2 := getD_of_drop_append text pat t i (pat.length - 1) ht hk
      unfold wordCharAt
      rw [show i + pat.length - 1 = i + (pat.length - 1) by omega, h2]
      exact h1
    have e1 : (((decide (i ≠ 0)) && wordCharAt text (i - 1)) != wordCharAt text i)
        = ((decide (i = 0)) || !wordCharAt text (i - 1)) := by
      rw [hw0]
      by_cases hi : i = 0
      · subst hi
        cases hw : wordCharAt text (0 - 1) <;> simp
      · cases hw : wordCharAt text (i - 1) <;> simp [hi]
    have e2 : (((decide (i + pat.length ≠ 0)) && wordCharAt text (i + pat.length - 1))
          != wordCharAt text (i + pat.length))
        = ((decide (i + pat.length = text.length)) || !wordCharAt text (i + pat.length)) := by
      have hne0 : i + pat.length ≠ 0 := by omega
      rw [hwlast]
      by_cases hend : i + pat.length = text.length
      · have hoob : wordCharAt text (i + pat.length) = false := by
          unfold wordCharAt
          rw [List.getD_eq_default]
          · rfl
          · omega
        rw [hoob, decide_eq_true hne0, hend]
        simp
      · cases hw : wordCharAt text (i + pat.length) <;> simp [hend, hne0, hw]
    unfold matchWordAt standaloneWordAt boundaryAt
    rw [hp, e1, e2]
    simp [Bool.and_comm, Bool.and_left_comm, Bool.and_assoc]

theorem any_eq_of_forall_eq {α : Type} (l : List α) (f g : α → Bool)
    (h : ∀ x ∈ l, f x = g x) : l.any f = l.any g := by
  induction l with
  | nil => rfl
  | cons a l ih =>
    simp only [List.any_cons]
    rw [h a (List.mem_cons_self a l), ih (fun x hx => h x (List.mem_cons_of_mem a hx))]

theorem regexSearchWord_eq_occursAsWord (text pat : Str)
    (hne : pat ≠ []) (h0 : isWordChar (pat.getD 0 ' ') = true)
    (h1 : isWordChar (pat.getD (pat.length - 1) ' ') = true) :
    regexSearchWord text pat = occursAsWord pat text := by
  unfold regexSearchWord occursAsWord
  exact any_eq_of_forall_eq _ _ _
    (fun i _ => matchWordAt_eq_standaloneWordAt text pat i hne h0 h1)

theorem is_valid_eq_occursAsWord (text n : Str) (h : wordEdgedLower n = true) :
    is_valid_component_match text n = occursAsWord (lowerStr n) (lowerStr text) := by
  unfold wordEdgedLower at h
  rw [Bool.and_eq_true, Bool.and_eq_true] at h
  obtain ⟨⟨hne, h0⟩, h1⟩ := h
  rw [Bool.not_eq_true', List.isEmpty_eq_false] at hne
  exact regexSearchWord_eq_occursAsWord (lowerStr text) (lowerStr n) hne h0 h1

theorem occursAsWord_nil (pat : Str) (hne : pat ≠ []) :
    occursAsWord pat [] = false := by
  cases pat with
  | nil => exact absurd rfl hne
  | cons c ps =>
    unfold occursAsWord standaloneWordAt
    simp [List.range]

theorem occursAsWord_ne_nil (pat text : Str) (hne : pat ≠ [])
    (h : occursAsWord pat text = true) : text ≠ [] := by
  intro hnil
  rw [hnil, occursAsWord_nil pat hne] at h
  cases h

/-- C4: with every candidate name (the component and its aliases)
non-empty and word-edged after lowercasing — true of all table entries —
relevance validation accepts a record exactly when some candidate occurs
as a standalone word (bounded by non-word characters or string edges,
case-insensitively) in one of the checked fields; in particular a purely
in-word substring occurrence is rejected. -/
theorem C4_word_boundary_relevance (cve : RawCve) (comp : Str)
    (h : ∀ n ∈ get_component_aliases comp, wordEdgedLower n = true) :
    validate_cve_relevance cve comp = true ↔
      ∃ n ∈ get_component_aliases comp, ∃ f ∈ fields_to_check cve,
        occursAsWord (lowerStr n) (lowerStr f) = true := by
  unfold validate_cve_relevance
  rw [List.any_eq_true]
  constructor
  · rintro ⟨f, hf, hmatch⟩
    rw [Bool.and_eq_true, List.any_eq_true] at hmatch
    obtain ⟨_, n, hn, hmatch⟩ := hmatch
    rw [is_valid_eq_occursAsWord f n (h n hn)] at hmatch
    exact ⟨n, hn, f, hf, hmatch⟩
  · rintro ⟨n, hn, f, hf, hocc⟩
    refine ⟨f, hf, ?_⟩
    rw [Bool.and_eq_true, List.any_eq_true]
    have hpne : lowerStr n ≠ [] := by
      have hw := h n hn
      unfold wordEdgedLower at hw
      rw [Bool.and_eq_true, Bool.and_eq_true] at hw
      rw [← List.isEmpty_eq_false, ← Bool.not_eq_true']
      exact hw.1.1
    have hfne : f.isEmpty = false := by
      rw [List.isEmpty_eq_false]
      intro hfnil
      have := occursAsWord_ne_nil (lowerStr n) (lowerStr f) hpne hocc
      rw [hfnil] at this
      exact this rfl
    refine ⟨by rw [hfne]; rfl, n, hn, ?_⟩
    rw [is_valid_eq_occursAsWord f n (h n hn)]
    exact hocc

theorem C4_word_boundary_witness :
    validate_cve_relevance cveMongo goName = false ∧
    (validate_cve_relevance cveGo goName = true ↔
      ∃ n ∈ get_component_aliases goName, ∃ f ∈ fields_to_check cveGo,
        occursAsWord (lowerStr n) (lowerStr f) = true) :=
  ⟨by decide, C4_word_boundary_relevance cveGo goName (by decide)⟩

/-- The no-adjacent-whitespace relation used through `List.Chain'`. -/
theorem collapseWs_cons_head (rest : Str) :
    ∀ c, ∃ t, collapseWs (c :: rest) = (if pySpace c then ' ' else c) :: t := by
  induction rest with
  | nil =>
    intro c
    by_cases h : pySpace c = true
    · exact ⟨[], by simp [collapseWs, h]⟩
    · exact ⟨[], by simp [collapseWs, h]⟩
  | cons c2 r2 ih =>
    intro c
    by_cases h : pySpace c = true
    · by_cases h2 : pySpace c2 = true
      · obtain ⟨t, ht⟩ := ih c2
        rw [if_pos h2] at ht
        exact ⟨t, by simp [collapseWs, h, h2, ht]⟩
      · exact ⟨collapseWs (c2 :: r2), by simp [collapseWs, h, h2]⟩
    · exact ⟨collapseWs (c2 :: r2), by simp [collapseWs, h]⟩

theorem collapseWs_ws_mem :
    ∀ s : Str, ∀ c ∈ collapseWs s, pySpace c = true → c = ' ' := by
  intro s
  induction s with
  | nil => intro c hc; cases hc
  | cons c0 rest ih =>
    cases rest with
    | nil =>
      intro c hc hws
      by_cases h : pySpace c0 = true
      · simp [collapseWs, h] at hc
        exact hc
      · simp [collapseWs, h] at hc
        rw [hc] at hws
        exact absurd hws h
    | cons c2 r2 =>
      intro c hc hws
      by_cases h : pySpace c0 = true
      · by_cases h2 : pySpace c2 = true
        · rw [show collapseWs (c0 :: c2 :: r2) = collapseWs (c2 :: r2)
              by simp [collapseWs, h, h2]] at hc
          exact ih c hc hws
        · rw [show collapseWs (c0 :: c2 :: r2) = ' ' :: collapseWs (c2 :: r2)
              by simp [collapseWs, h, h2]] at hc
          rcases List.mem_cons.mp hc with hc | hc
          · exact hc
          · exact ih c hc hws
      · rw [show collapseWs (c0 :: c2 :: r2) = c0 :: collapseWs (c2 :: r2)
            by simp [collapseWs, h]] at hc
        rcases List.mem_cons.mp hc with hc | hc
        · rw [hc] at hws; exact absurd hws h
        · exact ih c hc hws

/-- Adjacent characters are never both whitespace. -/
def RWs (a b : Char) : Prop := ¬(pySpace a = true ∧ pySpace b = true)

theorem collapseWs_chain : ∀ s : Str, List.Chain' RWs (collapseWs s) := by
  intro s
  induction s with
  | nil => exact List.chain'_nil
  | cons c0 rest ih =>
    cases rest with
    | nil =>
      by_cases h : pySpace c0 = true
      · simp [collapseWs, h]
      · simp [collapseWs, h]
    | cons c2 r2 =>
      by_cases h : pySpace c0 = true
      · by_cases h2 : pySpace c2 = true
        · rw [show collapseWs (c0 :: c2 :: r2) = collapseWs (c2 :: r2)
              by simp [collapseWs, h, h2]]
          exact ih
        · rw [show collapseWs (c0 :: c2 :: r2) = ' ' :: collapseWs (c2 :: r2)
              by simp [collapseWs, h, h2]]
          rw [List.chain'_cons']
          refine ⟨?_, ih⟩
          intro b hb
          obtain ⟨t, ht⟩ := collapseWs_cons_head r2 c2
          rw [if_neg h2] at ht
          rw [ht] at hb
          simp at hb
          intro hcontra
          rw [← hb] at hcontra
          exact h2 hcontra.2
      · rw [show collapseWs (c0 :: c2 :: r2) = c0 :: collapseWs (c2 :: r2)
            by simp [collapseWs, h]]
        rw [List.chain'_cons']
        refine ⟨?_, ih⟩
        intro b _
        intro hcontra
        exact h hcontra.1

theorem collapseWs_eq_self :
    ∀ s : Str, (∀ c ∈ s, pySpace c = true → c = ' ') → List.Chain' RWs s →
      collapseWs s = s := by
  intro s
  induction s with
  | nil => intro _ _; rfl
  | cons c0 rest ih =>
    cases rest with
    | nil =>
      intro hall _
      by_cases h : pySpace c0 = true
      · have := hall c0 (List.mem_cons_self _ _) h
        simp [collapseWs, h, this]
      · simp [collapseWs, h]
    | cons c2 r2 =>
      intro hall hchain
      rw [List.chain'_cons] at hchain
      obtain ⟨hR, hchain'⟩ := hchain
      have ihr := ih (fun c hc hw => hall c (List.mem_cons_of_mem _ hc) hw) hchain'
      by_cases h : pySpace c0 = true
      · have h2 : pySpace c2 = false := by
          by_contra hne
          rw [Bool.not_eq_false] at hne
          exact hR ⟨h, hne⟩
        have hc0 : c0 = ' ' := hall c0 (List.mem_cons_self _ _) h
        rw [show collapseWs (c0 :: c2 :: r2) = ' ' :: collapseWs (c2 :: r2)
            by simp [collapseWs, h, h2]]
        rw [ihr, hc0]
      · rw [show collapseWs (c0 :: c2 :: r2) = c0 :: collapseWs (c2 :: r2)
            by simp [collapseWs, h]]
        rw [ihr]

theorem pyStrip_subset (s : Str) : ∀ c ∈ pyStrip s, c ∈ s := by
  intro c hc
  unfold pyStrip at hc
  rw [List.mem_reverse] at hc
  have h1 := (List.dropWhile_suffix pySpace).sublist.subset hc
  rw [List.mem_reverse] at h1
  exact (List.dropWhile_suffix pySpace).sublist.subset h1

theorem chain'_dropWhile {R : Char → Char → Prop} (p : Char → Bool) (l : Str)
    (h : List.Chain' R l) : List.Chain' R (l.dropWhile p) := by
  obtain ⟨pre, hpre⟩ := List.dropWhile_suffix (l := l) p
  rw [← hpre] at h
  exact (List.chain'_append.mp h).2.1

theorem chain'_reverse_rws (s : Str) (h : List.Chain' RWs s) :
    List.Chain' RWs s.reverse := by
  rw [List.chain'_reverse]
  exact h.imp (fun a b hab hba => hab ⟨hba.2, hba.1⟩)

theorem pyStrip_chain (s : Str) (h : List.Chain' RWs s) :
    List.Chain' RWs (pyStrip s) := by
  unfold pyStrip
  exact chain'_reverse_rws _ (chain'_dropWhile _ _ (chain'_reverse_rws _ (chain'_dropWhile _ _ h)))

theorem headNotWs_dropWhile (l : Str) : headNotWs (l.dropWhile pySpace) = true := by
  have h := List.head?_dropWhile_not pySpace l
  cases hl : l.dropWhile pySpace with
  | nil => rfl
  | cons a t =>
    rw [hl] at h
    simp only [List.head?_cons] at h
    show (!pySpace a) = true
    rw [h]
    rfl

theorem pyStrip_trailNotWs (s : Str) : headNotWs (pyStrip s).reverse = true := by
  unfold pyStrip
  rw [List.reverse_reverse]
  exact headNotWs_dropWhile _

theorem pyStrip_headNotWs (s : Str) : headNotWs (pyStrip s) = true := by
  unfold pyStrip
  cases hh : ((s.dropWhile pySpace).reverse.dropWhile pySpace).reverse with
  | nil => rfl
  | cons b u =>
    show (!pySpace b) = true
    have hb : ((s.dropWhile pySpace).reverse.dropWhile pySpace).reverse.head? = some b := by
      rw [hh]; rfl
    rw [List.head?_reverse] at hb
    obtain ⟨pre, hpre⟩ := List.dropWhile_suffix (l := (s.dropWhile pySpace).reverse) pySpace
    have hlast : ((s.dropWhile pySpace).reverse).getLast? = some b := by
      conv_lhs => rw [← hpre]
      rw [List.getLast?_append, hb]
      rfl
    rw [List.getLast?_reverse] at hlast
    have h2 := List.head?_dropWhile_not pySpace s
    rw [hlast] at h2
    simp only at h2
    rw [h2]
    rfl

theorem splitFirst_some_eq (sep : Char) :
    ∀ s a b : Str, splitFirst sep s = some (a, b) → s = a ++ sep :: b ∧ sep ∉ a := by
  intro s
  induction s with
  | nil => intro a b h; cases h
  | cons c rest ih =>
    intro a b h
    by_cases hc : c = sep
    · rw [show splitFirst sep (c :: rest) = some ([], rest)
          by simp [splitFirst, hc]] at h
      injection h with h
      injection h with h1 h2
      rw [← h1, ← h2, hc]
      exact ⟨rfl, by intro hmem; cases hmem⟩
    · rw [show splitFirst sep (c :: rest)
            = (splitFirst sep rest).map (fun p => (c :: p.1, p.2))
          by simp [splitFirst, hc]] at h
      cases hs : splitFirst sep rest with
      | none => rw [hs] at h; cases h
      | some p =>
        obtain ⟨a', b'⟩ := p
        rw [hs] at h
        injection h with h
        injection h with h1 h2
        obtain ⟨hr, hna⟩ := ih a' b' hs
        constructor
        · rw [← h1, ← h2, hr]
          rfl
        · rw [← h1]
          intro hmem
          rcases List.mem_cons.mp hmem with hm | hm
          · exact hc hm.symm
          · exact hna hm

theorem splitFirst_none_iff (sep : Char) :
    ∀ s : Str, splitFirst sep s = none ↔ sep ∉ s := by
  intro s
  induction s with
  | nil => simp [splitFirst]
  | cons c rest ih =>
    by_cases hc : c = sep
    · rw [show splitFirst sep (c :: rest) = some ([], rest)
          by simp [splitFirst, hc]]
      simp [hc]
    · rw [show splitFirst sep (c :: rest)
            = (splitFirst sep rest).map (fun p => (c :: p.1, p.2))
          by simp [splitFirst, hc]]
      constructor
      · intro h hmem
        rcases List.mem_cons.mp hmem with hm | hm
        · exact hc hm.symm
        · cases hs : splitFirst sep rest with
          | none => exact (ih.mp hs) hm
          | some p => rw [hs] at h; cases h
      · intro h
        have : sep ∉ rest := fun hm => h (List.mem_cons_of_mem _ hm)
        rw [ih.mpr this]
        rfl

theorem removeTagsAux_some_spec :
    ∀ rest : Str, ('\n') ∉ rest → ∀ buf : Str,
      removeTagsAux (some buf) rest
        = (match splitFirst '>' rest with
           | some p => removeTagsAux none p.2
           | none => buf.reverse ++ rest) := by
  intro rest
  induction rest with
  | nil =>
    intro _ buf
    show buf.reverse = buf.reverse ++ []
    rw [List.append_nil]
  | cons c r ih =>
    intro hnl buf
    by_cases hgt : c = '>'
    · rw [show removeTagsAux (some buf) (c :: r) = removeTagsAux none r
          by simp [removeTagsAux, hgt]]
      rw [show splitFirst '>' (c :: r) = some ([], r) by simp [splitFirst, hgt]]
    · have hnlc : c ≠ '\n' := by
        intro he
        exact hnl (he ▸ List.mem_cons_self c r)
      rw [show removeTagsAux (some buf) (c :: r) = removeTagsAux (some (c :: buf)) r
          by simp [removeTagsAux, hgt, hnlc]]
      have hnr : ('\n') ∉ r := fun hm => hnl (List.mem_cons_of_mem _ hm)
      rw [ih hnr (c :: buf)]
      rw [show splitFirst '>' (c :: r)
            = (splitFirst '>' r).map (fun p => (c :: p.1, p.2))
          by simp [splitFirst, hgt]]
      cases hs : splitFirst '>' r with
      | none =>
        show (c :: buf).reverse ++ r = buf.reverse ++ c :: r
        rw [List.reverse_cons, List.append_assoc]
        rfl
      | some p => rfl

theorem noLaterGt_of_no_gt : ∀ l : Str, ('>') ∉ l → noLaterGt l = true := by
  intro l
  induction l with
  | nil => intro _; rfl
  | cons c rest ih =>
    intro h
    have hr : ('>') ∉ rest := fun hm => h (List.mem_cons_of_mem _ hm)
    show ((if c = '<' then !(rest.any (fun d => d == '>')) else true) && noLaterGt rest) = true
    rw [ih hr, Bool.and_true]
    by_cases hc : c = '<'
    · rw [if_pos hc]
      have : rest.any (fun d => d == '>') = false := by
        rw [← Bool.not_eq_true]
        intro hany
        obtain ⟨x, hx, hbeq⟩ := List.any_eq_true.mp hany
        rw [beq_iff_eq] at hbeq
        exact hr (hbeq ▸ hx)
      rw [this]
      rfl
    · rw [if_neg hc]

theorem gt_mem_filterTag (s : Str) : ('>') ∈ filterTag s ↔ ('>') ∈ s := by
  unfold filterTag
  rw [List.mem_filter]
  constructor
  · exact fun h => h.1
  · exact fun h => ⟨h, by rfl⟩

theorem ws_not_tag (c : Char) (h : pySpace c = true) : isTagChar c = false := by
  unfold pySpace at h
  unfold isTagChar
  rcases Bool.or_eq_true_iff.mp h with h5 | h6
  · rcases Bool.or_eq_true_iff.mp h5 with h4 | h6
    · rcases Bool.or_eq_true_iff.mp h4 with h3 | h6
      · rcases Bool.or_eq_true_iff.mp h3 with h2 | h6
        · rcases Bool.or_eq_true_iff.mp h2 with h1 | h6
          · rw [beq_iff_eq] at h1; rw [h1]; rfl
          · rw [beq_iff_eq] at h6; rw [h6]; rfl
        · rw [beq_iff_eq] at h6; rw [h6]; rfl
      · rw [beq_iff_eq] at h6; rw [h6]; rfl
    · rw [beq_iff_eq] at h6; rw [h6]; rfl
  · rw [beq_iff_eq] at h6; rw [h6]; rfl

theorem filterTag_cons_not_tag (c : Char) (s : Str) (h : isTagChar c = false) :
    filterTag (c :: s) = filterTag s := by
  unfold filterTag
  rw [List.filter_cons, h, if_neg Bool.false_ne_true]

theorem filterTag_cons_tag (c : Char) (s : Str) (h : isTagChar c = true) :
    filterTag (c :: s) = c :: filterTag s := by
  unfold filterTag
  rw [List.filter_cons, h, if_pos rfl]

theorem noLaterGt_cons (c : Char) (rest : Str) :
    noLaterGt (c :: rest)
      = ((if c = '<' then !(rest.any (fun d => d == '>')) else true) && noLaterGt rest) :=
  rfl

theorem any_gt_eq_false (l : Str) (h : ('>') ∉ l) :
    l.any (fun d => d == '>') = false := by
  rw [← Bool.not_eq_true]
  intro hany
  obtain ⟨x, hx, hbeq⟩ := List.any_eq_true.mp hany
  rw [beq_iff_eq] at hbeq
  exact h (hbeq ▸ hx)

theorem filterTag_collapseWs : ∀ s : Str, filterTag (collapseWs s) = filterTag s := by
  intro s
  induction s with
  | nil => rfl
  | cons c0 rest ih =>
    cases rest with
    | nil =>
      by_cases h : pySpace c0 = true
      · rw [show collapseWs [c0] = [' '] by simp [collapseWs, h]]
        rw [show ([' '] : Str) = ' ' :: [] from rfl]
        rw [filterTag_cons_not_tag ' ' [] rfl, filterTag_cons_not_tag c0 [] (ws_not_tag c0 h)]
      · rw [show collapseWs [c0] = [c0] by simp [collapseWs, h]]
    | cons c2 r2 =>
      by_cases h : pySpace c0 = true
      · have hnt := ws_not_tag c0 h
        by_cases h2 : pySpace c2 = true
        · rw [show collapseWs (c0 :: c2 :: r2) = collapseWs (c2 :: r2)
              by simp [collapseWs, h, h2]]
          rw [ih, filterTag_cons_not_tag c0 _ hnt]
        · rw [show collapseWs (c0 :: c2 :: r2) = ' ' :: collapseWs (c2 :: r2)
              by simp [collapseWs, h, h2]]
          rw [filterTag_cons_not_tag ' ' _ rfl, filterTag_cons_not_tag c0 _ hnt]
          exact ih
      · rw [show collapseWs (c0 :: c2 :: r2) = c0 :: collapseWs (c2 :: r2)
            by simp [collapseWs, h]]
        cases ht : isTagChar c0
        · rw [filterTag_cons_not_tag c0 _ ht, filterTag_cons_not_tag c0 _ ht]
          exact ih
        · rw [filterTag_cons_tag c0 _ ht, filterTag_cons_tag c0 _ ht, ih]

theorem filterTag_dropWhile (l : Str) :
    filterTag (l.dropWhile pySpace) = filterTag l := by
  conv_rhs => rw [← List.takeWhile_append_dropWhile (p := pySpace) (l := l)]
  unfold filterTag
  rw [List.filter_append]
  have h : (l.takeWhile pySpace).filter isTagChar = [] := by
    rw [List.filter_eq_nil_iff]
    intro a ha
    rw [ws_not_tag a (List.mem_takeWhile_imp ha)]
    exact Bool.false_ne_true
  rw [h, List.nil_append]

theorem filterTag_reverse (l : Str) : filterTag l.reverse = (filterTag l).reverse := by
  unfold filterTag
  exact List.filter_reverse _ _

theorem filterTag_pyStrip (s : Str) : filterTag (pyStrip s) = filterTag s := by
  unfold pyStrip
  rw [filterTag_reverse, filterTag_dropWhile, filterTag_reverse, filterTag_dropWhile,
    List.reverse_reverse]

theorem noLaterGt_removeTags :
    ∀ n : Nat, ∀ t : Str, t.length ≤ n → ('\n') ∉ t →
      noLaterGt (filterTag (removeTagsAux none t)) = true := by
  intro n
  induction n with
  | zero =>
    intro t hlen _
    rw [List.length_eq_zero.mp (Nat.le_zero.mp hlen)]
    rfl
  | succ n ih =>
    intro t hlen hnl
    cases t with
    | nil => rfl
    | cons c rest =>
      have hnr : ('\n') ∉ rest := fun hm => hnl (List.mem_cons_of_mem _ hm)
      have hrlen : rest.length ≤ n := by
        rw [List.length_cons] at hlen
        omega
      by_cases hc : c = '<'
      · rw [show removeTagsAux none (c :: rest) = removeTagsAux (some ['<']) rest
            by simp [removeTagsAux, hc]]
        rw [removeTagsAux_some_spec rest hnr ['<']]
        cases hs : splitFirst '>' rest with
        | none =>
          have hng : ('>') ∉ rest := (splitFirst_none_iff '>' rest).mp hs
          have hngf : ('>') ∉ filterTag rest := fun hm => hng ((gt_mem_filterTag rest).mp hm)
          show noLaterGt (filterTag ('<' :: rest)) = true
          rw [filterTag_cons_tag '<' rest rfl, noLaterGt_cons, if_pos rfl,
            noLaterGt_of_no_gt _ hngf, Bool.and_true, any_gt_eq_false _ hngf]
          rfl
        | some p =>
          obtain ⟨a, b⟩ := p
          obtain ⟨hr, _⟩ := splitFirst_some_eq '>' rest a b hs
          have hblen : b.length ≤ n := by
            have h2 := congrArg List.length hr
            rw [List.length_append, List.length_cons] at h2
            omega
          have hbnl : ('\n') ∉ b := by
            intro hm
            exact hnr (hr ▸ List.mem_append_right a (List.mem_cons_of_mem _ hm))
          exact ih b hblen hbnl
      · rw [show removeTagsAux none (c :: rest) = c :: removeTagsAux none rest
            by simp [removeTagsAux, hc]]
        have ihr := ih rest hrlen hnr
        cases ht : isTagChar c
        · rw [filterTag_cons_not_tag c _ ht]
          exact ihr
        · rw [filterTag_cons_tag c _ ht, noLaterGt_cons, if_neg hc, ihr]
          rfl

theorem removeTags_eq_self :
    ∀ t : Str, ('\n') ∉ t → noLaterGt (filterTag t) = true →
      removeTagsAux none t = t := by
  intro t
  induction t with
  | nil => intro _ _; rfl
  | cons c rest ih =>
    intro hnl hq
    have hnr : ('\n') ∉ rest := fun hm => hnl (List.mem_cons_of_mem _ hm)
    by_cases hc : c = '<'
    · have hq' : noLaterGt ('<' :: filterTag rest) = true := by
        rw [hc, filterTag_cons_tag '<' rest rfl] at hq
        exact hq
      rw [noLaterGt_cons, if_pos rfl, Bool.and_eq_true] at hq'
      have hng : ('>') ∉ rest := by
        intro hm
        have hmf : ('>') ∈ filterTag rest := (gt_mem_filterTag rest).mpr hm
        have hany : (filterTag rest).any (fun d => d == '>') = true :=
          List.any_eq_true.mpr ⟨'>', hmf, by rfl⟩
        rw [hany] at hq'
        exact Bool.false_ne_true hq'.1
      rw [show removeTagsAux none (c :: rest) = removeTagsAux (some ['<']) rest
          by simp [removeTagsAux, hc]]
      rw [removeTagsAux_some_spec rest hnr ['<']]
      rw [(splitFirst_none_iff '>' rest).mpr hng]
      rw [hc]
      rfl
    · rw [show removeTagsAux none (c :: rest) = c :: removeTagsAux none rest
          by simp [removeTagsAux, hc]]
      have hq' : noLaterGt (filterTag rest) = true := by
        cases ht : isTagChar c
        · rw [filterTag_cons_not_tag c _ ht] at hq
          exact hq
        · rw [filterTag_cons_tag c _ ht, noLaterGt_cons, Bool.and_eq_true] at hq
          exact hq.2
      rw [ih hnr hq']

theorem allWsSpace_iff (s : Str) :
    allWsSpace s = true ↔ ∀ c ∈ s, pySpace c = true → c = ' ' := by
  unfold allWsSpace
  rw [List.all_eq_true]
  constructor
  · intro h c hc hws
    have hb : (!pySpace c || c == ' ') = true := h c hc
    rw [hws] at hb
    simp only [Bool.not_true, Bool.false_or] at hb
    exact eq_of_beq hb
  · intro h c hc
    cases hws : pySpace c with
    | false => rfl
    | true =>
      rw [h c hc hws]
      rfl

theorem noAdjWs_iff_chain : ∀ s : Str, noAdjWs s = true ↔ List.Chain' RWs s := by
  intro s
  induction s with
  | nil =>
    constructor
    · intro _; exact List.chain'_nil
    · intro _; rfl
  | cons c rest ih =>
    cases rest with
    | nil =>
      constructor
      · intro _; exact List.chain'_singleton c
      · intro _; rfl
    | cons c2 r2 =>
      rw [show noAdjWs (c :: c2 :: r2)
            = (!(pySpace c && pySpace c2) && noAdjWs (c2 :: r2)) from rfl]
      rw [Bool.and_eq_true, List.chain'_cons]
      constructor
      · rintro ⟨h1, h2⟩
        refine ⟨?_, ih.mp h2⟩
        rintro ⟨ha, hb⟩
        rw [ha, hb] at h1
        simp at h1
      · rintro ⟨h1, h2⟩
        refine ⟨?_, ih.mpr h2⟩
        cases hwc : pySpace c with
        | false => rfl
        | true =>
          cases hwc2 : pySpace c2 with
          | false => rfl
          | true => exact absurd ⟨hwc, hwc2⟩ h1

theorem no_newline_of_allWs (o : Str)
    (h : ∀ c ∈ o, pySpace c = true → c = ' ') : ('\n') ∉ o := by
  intro hm
  have hsp := h '\n' hm (by rfl)
  exact absurd hsp (by decide)

theorem dropWhile_eq_self_of_headNotWs (s : Str) (h : headNotWs s = true) :
    s.dropWhile pySpace = s := by
  cases s with
  | nil => rfl
  | cons c rest =>
    have hc : (!pySpace c) = true := h
    rw [List.dropWhile_cons_of_neg]
    intro hp
    rw [hp] at hc
    exact Bool.false_ne_true hc

theorem pyStrip_eq_self (s : Str) (h1 : headNotWs s = true)
    (h2 : headNotWs s.reverse = true) : pyStrip s = s := by
  unfold pyStrip
  rw [dropWhile_eq_self_of_headNotWs s h1,
    dropWhile_eq_self_of_headNotWs s.reverse h2, List.reverse_reverse]

/-- C7: `clean_description` strips same-line `<...>` substrings,
collapses whitespace runs (including newlines) to single spaces and
trims the ends — on the spec's scenario string it produces exactly the
expected output, the timestamp truncation keeps the date part, and every
output has fully normalized whitespace. -/
theorem C7_description_normalization :
    clean_description exInput = exOutput ∧
    truncDate exTimestamp = exDate ∧
    ∀ t : Str, wsClean (clean_description t) = true := by
  refine ⟨by decide, by decide, ?_⟩
  intro t
  unfold wsClean clean_description
  have hall : ∀ c ∈ pyStrip (collapseWs (clean_html_tags t)), pySpace c = true → c = ' ' :=
    fun c hc hw => collapseWs_ws_mem (clean_html_tags t) c (pyStrip_subset _ c hc) hw
  have hchain : List.Chain' RWs (pyStrip (collapseWs (clean_html_tags t))) :=
    pyStrip_chain _ (collapseWs_chain (clean_html_tags t))
  rw [(allWsSpace_iff _).mpr hall, ((noAdjWs_iff_chain _).mpr hchain :),
    pyStrip_headNotWs, pyStrip_trailNotWs]
  rfl

/-- C8 counterexample: cleaning is not idempotent.  In
`a<b(newline)c>d` the candidate tag is interrupted by a newline, so the
first pass keeps it but collapses the newline to a space; the second
pass then sees a same-line `<b c>` tag and removes it. -/
theorem C8_not_idempotent_counterexample :
    clean_description tagNewlineInput = r"a<b c>d".toList ∧
    clean_description (clean_description tagNewlineInput) = r"ad".toList ∧
    clean_description (clean_description tagNewlineInput)
      ≠ clean_description tagNewlineInput := by
  refine ⟨by decide, by decide, by decide⟩

/-- C8 amended: description cleaning is idempotent on every input that
contains no newline character (after one pass no unprocessed tag can
reappear, and the whitespace is already normalized); with a newline a
second pass can remove more, as the counterexample shows. -/
theorem C8_idempotent_amended (t : Str) (h : ('\n') ∉ t) :
    clean_description (clean_description t) = clean_description t := by
  have hQr : noLaterGt (filterTag (removeTagsAux none t)) = true :=
    noLaterGt_removeTags t.length t (Nat.le_refl _) h
  have hall : ∀ c ∈ pyStrip (collapseWs (clean_html_tags t)), pySpace c = true → c = ' ' :=
    fun c hc hw => collapseWs_ws_mem (clean_html_tags t) c (pyStrip_subset _ c hc) hw
  have hchain : List.Chain' RWs (pyStrip (collapseWs (clean_html_tags t))) :=
    pyStrip_chain _ (collapseWs_chain (clean_html_tags t))
  have hnl : ('\n') ∉ pyStrip (collapseWs (clean_html_tags t)) :=
    no_newline_of_allWs _ hall
  have hQo : noLaterGt (filterTag (pyStrip (collapseWs (clean_html_tags t)))) = true := by
    rw [filterTag_pyStrip, filterTag_collapseWs]
    exact hQr
  show pyStrip (collapseWs (clean_html_tags (pyStrip (collapseWs (clean_html_tags t)))))
      = pyStrip (collapseWs (clean_html_tags t))
  rw [show clean_html_tags (pyStrip (collapseWs (clean_html_tags t)))
        = pyStrip (collapseWs (clean_html_tags t)) from removeTags_eq_self _ hnl hQo]
  rw [collapseWs_eq_self _ hall hchain]
  exact pyStrip_eq_self _ (pyStrip_headNotWs _) (pyStrip_trailNotWs _)

theorem C8_idempotent_witness :
    clean_description (clean_description noNewlineInput)
      = clean_description noNewlineInput :=
  C8_idempotent_amended noNewlineInput (by decide)
